import Mathlib

/-!
Verification of the talking-piano pitch pipeline.

Shallow embedding of the algorithmic core of the repository:
* the two note quantizers (`playMIDI` in `MIDIPlayer.jsx` and `generateMIDI`
  in the MIDI generator component), modelled over exact rationals;
* the frame scanners of `PitchDetector.jsx` / `SpectralPitchDetector.jsx`;
* the frequency/MIDI converters `hzToMidi` / `midiToHz`;
* the autocorrelation pitch estimator `autoCorrelate`;
* the harmonic filter `filterHarmonics` of `SpectralPitchDetector.jsx`.
JavaScript floating-point numbers are modelled by `ℚ` where the code only
compares and adds times, and by `ℝ` where the code uses `Math.log2`,
`Math.sqrt` or `Math.pow`.
-/

namespace TalkingPiano

/-! ### Note quantizers

`playMIDI` (MIDIPlayer.jsx lines 50-79) groups notes by 20 ms windows:

    let currentGroup = []; let currentTime = 0;
    for (note of notes)
      if (note.time - currentTime < timeWindowSize) currentGroup.push(note);
      else { if (currentGroup.length > 0) noteGroups.push({time: currentTime, notes: currentGroup});
             currentGroup = [note]; currentTime = note.time; }
    if (currentGroup.length > 0) noteGroups.push({time: currentTime, notes: currentGroup});

`generateMIDI` (MIDI generator component, lines 470-491) groups pitches:

    let currentGroup = { startTime: 0, pitches: [] };
    for (item of pitchData)
      if (time > currentGroup.startTime + timeWindowSize)
        { if (currentGroup.pitches.length > 0) pitchGroups.push({...currentGroup});
          currentGroup = { startTime: time, pitches: [hz] }; }
      else currentGroup.pitches.push(hz);
    if (currentGroup.pitches.length > 0) pitchGroups.push(currentGroup);

Only the event times drive the grouping; the events themselves are carried
along unchanged.  We therefore model an event by its time (`ℚ`) and a group
by its start time paired with the list of member event times.
-/

/-- The 20 ms quantization window (`timeWindowSize = 0.02`). -/
def timeWindowSize : ℚ := 1 / 50

/-- Grouping loop of `playMIDI`: state is the current group start time `cur`
and the current group contents `acc` (in order). -/
def playGroupsAux (w : ℚ) : ℚ → List ℚ → List ℚ → List (ℚ × List ℚ)
  | cur, acc, [] => if acc = [] then [] else [(cur, acc)]
  | cur, acc, t :: ts =>
    if t - cur < w then
      playGroupsAux w cur (acc ++ [t]) ts
    else
      (if acc = [] then [] else [(cur, acc)]) ++ playGroupsAux w t [t] ts

/-- The note grouping performed by `playMIDI` (initial `currentTime = 0`,
initial group empty). -/
def playGroups (w : ℚ) (ts : List ℚ) : List (ℚ × List ℚ) :=
  playGroupsAux w 0 [] ts

/-- Grouping loop of `generateMIDI`: state is `currentGroup.startTime` and
`currentGroup.pitches` (here: the member event times). -/
def genGroupsAux (w : ℚ) : ℚ → List ℚ → List ℚ → List (ℚ × List ℚ)
  | cur, acc, [] => if acc = [] then [] else [(cur, acc)]
  | cur, acc, t :: ts =>
    if t > cur + w then
      (if acc = [] then [] else [(cur, acc)]) ++ genGroupsAux w t [t] ts
    else
      genGroupsAux w cur (acc ++ [t]) ts

/-- The pitch grouping performed by `generateMIDI`
(initial `currentGroup = { startTime: 0, pitches: [] }`). -/
def genGroups (w : ℚ) (ts : List ℚ) : List (ℚ × List ℚ) :=
  genGroupsAux w 0 [] ts

/-- `noBoundaryHit w cur ts` holds when, running the quantizer loop from
group start `cur`, no event time falls exactly on the closing boundary
`cur + w` of the group open when it is processed.  On such runs the strict
comparison of `playMIDI` and the non-strict comparison of `generateMIDI`
make the same decision at every step. -/
def noBoundaryHit (w : ℚ) : ℚ → List ℚ → Bool
  | _, [] => true
  | cur, t :: ts =>
    t ≠ cur + w && noBoundaryHit w (if t - cur < w then cur else t) ts

/-! ### Frame scanner

Both detectors slide a fixed window across the sample buffer:

    PitchDetector.jsx line 30:
      for (let i = 0; i < channelData.length - windowSize; i += hopSize)
    SpectralPitchDetector.jsx line 38:
      for (let i = 0; i < channelData.length - fftSize; i += hopSize)

The loop guard `i < len - windowSize` over JavaScript numbers is equivalent
to `i + windowSize < len` over the integers, which is how we write it
(over `ℕ` the two are also equal, truncated subtraction included).  The
loop is modelled with a fuel argument; `len` units of fuel always suffice
for a positive hop, because each emitted index is strictly below `len` and
indices advance by at least one.
-/

/-- The scanner loop: emit the current start index `i` while
`i + w < len`, advancing by the hop `h`. -/
def scanLoop (len w h : ℕ) : ℕ → ℕ → List ℕ
  | 0, _ => []
  | fuel + 1, i => if i + w < len then i :: scanLoop len w h fuel (i + h) else []

/-- All window start indices analyzed by a detector's scan of a buffer of
length `len` with window size `w` and hop size `h`. -/
def frameStarts (len w h : ℕ) : List ℕ :=
  scanLoop len w h len 0

/-! ### Frequency/MIDI conversion

`utils/pitchDetection.js` lines 61-72 (the same unclamped formula is inlined
in `playMIDI` and repeated in `SpectralPitchDetector.jsx`):

    export function hzToMidi(hz) { return Math.round(69 + 12 * Math.log2(hz / 440)); }
    export function midiToHz(midiNote) { return 440 * Math.pow(2, (midiNote - 69) / 12); }

`generateMIDI` carries its own local, clamped variant (lines 464-468):

    const hzToMidi = (hz) => {
      if (!hz || hz <= 0) return null;
      const midiFloat = 69 + 12 * Math.log2(hz / 440);
      return Math.max(0, Math.min(127, Math.round(midiFloat)));
    };

`Math.round` rounds half-way cases up, as does Mathlib's `round`.
-/

/-- The shared, unclamped `hzToMidi`. -/
noncomputable def hzToMidi (hz : ℝ) : ℤ :=
  round (69 + 12 * Real.logb 2 (hz / 440))

/-- `midiToHz`. -/
noncomputable def midiToHz (midiNote : ℤ) : ℝ :=
  440 * (2 : ℝ) ^ (((midiNote : ℝ) - 69) / 12)

/-- The exporter's local clamped conversion (`generateMIDI`); `null` is
`none`.  (The JavaScript guard `!hz || hz <= 0` also catches `NaN`, which
has no counterpart in `ℝ`.) -/
noncomputable def hzToMidiClamped (hz : ℝ) : Option ℤ :=
  if hz ≤ 0 then none
  else some (max 0 (min 127 (round (69 + 12 * Real.logb 2 (hz / 440)))))

/-! ### Autocorrelation pitch estimator

`utils/pitchDetection.js` lines 8-54.  The buffer is a list of reals read
through `getD i 0`; every access of the source is in range (`i < M`,
`offset < M`, `M = ⌊SIZE/2⌋`, so `i + offset ≤ 2M - 2 < SIZE`), so the
default value is never consulted.  `Rat`ionale for the real-valued `if`:
the JavaScript comparisons are floating-point; we model them exactly.
For an empty buffer the source computes `rms = sqrt(0/0) = NaN`, fails the
`rms < 0.0005` test and then runs zero loop iterations, returning `-1`;
in `ℝ` we have `0 / 0 = 0`, the test succeeds, and `-1` is returned on the
same inputs through the other branch — the function values agree.
-/

/-- Correlation score at a lag:
`correlation = 1 - (Σ_{i<M} |buffer[i] - buffer[i+offset]|) / M`. -/
noncomputable def corrAt (buffer : List ℝ) (M offset : ℕ) : ℝ :=
  1 - (∑ i ∈ Finset.range M,
        |buffer.getD i 0 - buffer.getD (i + offset) 0|) / M

/-- One iteration of the lag-search loop; the state is
`(best_correlation, best_offset, lastCorrelation)`, with `best_offset = -1`
meaning "none found yet". -/
noncomputable def acStep (buffer : List ℝ) (M : ℕ) (st : ℝ × ℤ × ℝ)
    (offset : ℕ) : ℝ × ℤ × ℝ :=
  let correlation := corrAt buffer M offset
  if correlation > 0.9 ∧ correlation > st.2.2 then
    if correlation > st.1 then (correlation, (offset : ℤ), correlation)
    else (st.1, st.2.1, correlation)
  else (st.1, st.2.1, correlation)

/-- The lag-search loop over offsets `0 ≤ offset < M`, starting from
`best_correlation = 0`, `best_offset = -1`, `lastCorrelation = 1`. -/
noncomputable def acSearch (buffer : List ℝ) (M : ℕ) : ℝ × ℤ × ℝ :=
  (List.range M).foldl (acStep buffer M) (0, -1, 1)

/-- `autoCorrelate`: RMS silence gate, lag search, then
`sampleRate / best_offset` (or the `-1` sentinel). -/
noncomputable def autoCorrelate (buffer : List ℝ) (sampleRate : ℝ) : ℝ :=
  if Real.sqrt ((∑ i ∈ Finset.range buffer.length,
      buffer.getD i 0 * buffer.getD i 0) / buffer.length) < 0.0005 then
    -1
  else if (acSearch buffer (buffer.length / 2)).2.1 = -1 then
    -1
  else
    sampleRate / (((acSearch buffer (buffer.length / 2)).2.1 : ℤ) : ℝ)

/-! ### Frame scan of PitchDetector.jsx

`detectPitches` (lines 16-58): window 2048, hop 512; each frame is sliced,
fed to `autoCorrelate`, and kept when `hz > 50 && hz < 1000`, recording
`{ time: (i / sampleRate).toFixed(3), hz: Math.round(hz * 100) / 100 }`.
The string formatting of `time` is not modelled; the numeric value is kept.
No validation of the buffer or the sample rate is performed anywhere in the
function.
-/

/-- The pitch list produced by one run of `detectPitches`. -/
noncomputable def detectPitches (channelData : List ℝ) (sampleRate : ℝ) :
    List (ℝ × ℝ) :=
  (frameStarts channelData.length 2048 512).filterMap (fun i =>
    let hz := autoCorrelate ((channelData.drop i).take 2048) sampleRate
    if 50 < hz ∧ hz < 1000 then
      some ((i : ℝ) / sampleRate, (round (hz * 100) : ℤ) / (100 : ℝ))
    else none)

/-! ### Harmonic filtering

`SpectralPitchDetector.jsx` lines 8-13 and 166-204.  Frequencies and
amplitudes are modelled over `ℚ` (the algorithm only divides, rounds and
compares).  `Math.round` rounds half-way cases up, as does Mathlib's
`round`.  The `bin` field of a peak is never read by `filterHarmonics` and
is omitted.  JavaScript's `Array.prototype.sort` is stable and is modelled
by `List.mergeSort`; the comparator `(a, b) => a.frequency - b.frequency`
sorts by frequency ascending.  The `used` set is modelled as a list queried
only through membership.
-/

/-- A spectral peak. -/
structure Peak where
  frequency : ℚ
  amplitude : ℚ
deriving DecidableEq

/-- The default `tolerance = 0.1` of `isHarmonic`. -/
def defaultTolerance : ℚ := 1 / 10

/-- `isHarmonic(freq, fundamental, tolerance)`:
the ratio is within `tolerance` of its nearest integer, which exceeds 1. -/
def isHarmonic (freq fundamental tolerance : ℚ) : Bool :=
  let ratio := freq / fundamental
  let nearestInteger := round ratio
  decide (|ratio - (nearestInteger : ℚ)| < tolerance ∧ 1 < nearestInteger)

/-- One outer-loop iteration of `filterHarmonics` at index `i` of the
frequency-sorted peak list; the state is `(fundamentals, used)`.  The inner
`for j < i … break` loop has no side effects and is the conjunction tested
by `List.all`; the marking loop adds every later harmonic of an accepted
fundamental to `used`. -/
def fhStep (sorted : List Peak) (st : List Peak × List ℕ) (i : ℕ) :
    List Peak × List ℕ :=
  if i ∈ st.2 then st
  else
    let candidate := sorted.getD i ⟨0, 0⟩
    if (List.range i).all (fun j =>
        decide (j ∈ st.2) ||
          !isHarmonic candidate.frequency (sorted.getD j ⟨0, 0⟩).frequency
            defaultTolerance) then
      (st.1 ++ [candidate],
        (st.2 ++ [i]) ++ (List.range sorted.length).filter (fun j =>
          decide (i < j) &&
            isHarmonic (sorted.getD j ⟨0, 0⟩).frequency candidate.frequency
              defaultTolerance))
    else st

/-- `filterHarmonics(peaks)`: greedy frequency-ascending fundamental
selection. -/
def filterHarmonics (peaks : List Peak) : List Peak :=
  if peaks = [] then []
  else
    let sorted := peaks.mergeSort (fun a b => decide (a.frequency ≤ b.frequency))
    ((List.range sorted.length).foldl (fhStep sorted) ([], [])).1

theorem playGroupsAux_eq_genGroupsAux (w : ℚ) (ts : List ℚ) :
    ∀ cur acc, noBoundaryHit w cur ts = true →
      playGroupsAux w cur acc ts = genGroupsAux w cur acc ts := by
  induction ts with
  | nil => intro cur acc _; rfl
  | cons t ts ih =>
    intro cur acc h
    rw [noBoundaryHit] at h
    simp only [Bool.and_eq_true, decide_eq_true_eq, ne_eq] at h
    obtain ⟨hne, hrest⟩ := h
    by_cases hlt : t - cur < w
    · have hng : ¬ t > cur + w := by
        intro hgt; linarith
      rw [playGroupsAux, genGroupsAux, if_pos hlt, if_neg hng]
      rw [if_pos hlt] at hrest
      exact ih cur (acc ++ [t]) hrest
    · have hgt : t > cur + w := by
        rcases lt_trichotomy t (cur + w) with h1 | h1 | h1
        · exact absurd (by linarith) hlt
        · exact absurd h1 (by simpa using hne)
        · exact h1
      rw [playGroupsAux, genGroupsAux, if_neg hlt, if_pos hgt]
      rw [if_neg hlt] at hrest
      rw [ih t [t] hrest]

/-- Concatenating the members of all groups emitted by the `playMIDI` loop
recovers the pending group followed by the remaining input. -/
theorem playGroupsAux_flat (w : ℚ) (ts : List ℚ) :
    ∀ cur acc, (playGroupsAux w cur acc ts).flatMap Prod.snd = acc ++ ts := by
  induction ts with
  | nil =>
    intro cur acc
    rw [playGroupsAux]
    by_cases h : acc = [] <;> simp [h]
  | cons t ts ih =>
    intro cur acc
    rw [playGroupsAux]
    by_cases hlt : t - cur < w
    · rw [if_pos hlt, ih]; simp
    · rw [if_neg hlt]
      by_cases h : acc = [] <;> simp [h, ih]

/-- Same statement for the `generateMIDI` loop. -/
theorem genGroupsAux_flat (w : ℚ) (ts : List ℚ) :
    ∀ cur acc, (genGroupsAux w cur acc ts).flatMap Prod.snd = acc ++ ts := by
  induction ts with
  | nil =>
    intro cur acc
    rw [genGroupsAux]
    by_cases h : acc = [] <;> simp [h]
  | cons t ts ih =>
    intro cur acc
    rw [genGroupsAux]
    by_cases hgt : t > cur + w
    · rw [if_pos hgt]
      by_cases h : acc = [] <;> simp [h, ih]
    · rw [if_neg hgt, ih]; simp

/-- Group start times emitted by the `playMIDI` loop are pairwise increasing
and bounded below by the pending group's start time. -/
theorem playGroupsAux_starts (w : ℚ) (hw : 0 < w) (ts : List ℚ) :
    ∀ cur acc,
      List.Pairwise (· < ·) ((playGroupsAux w cur acc ts).map Prod.fst) ∧
      ∀ s ∈ (playGroupsAux w cur acc ts).map Prod.fst, cur ≤ s := by
  induction ts with
  | nil =>
    intro cur acc
    rw [playGroupsAux]
    by_cases h : acc = [] <;> simp [h]
  | cons t ts ih =>
    intro cur acc
    rw [playGroupsAux]
    by_cases hlt : t - cur < w
    · rw [if_pos hlt]; exact ih cur (acc ++ [t])
    · rw [if_neg hlt]
      have hct : cur < t := by
        have : cur + w ≤ t := by linarith [not_lt.mp hlt]
        linarith
      obtain ⟨hpair, hbound⟩ := ih t [t]
      by_cases h : acc = []
      · simp only [h, if_pos rfl, List.nil_append]
        refine ⟨hpair, fun s hs => le_trans (le_of_lt hct) (hbound s hs)⟩
      · simp only [if_neg h, List.singleton_append, List.map_cons,
          List.pairwise_cons]
        refine ⟨⟨fun s hs => lt_of_lt_of_le hct (hbound s hs), hpair⟩,
          fun s hs => ?_⟩
        rcases List.mem_cons.mp hs with h1 | h1
        · exact le_of_eq h1.symm
        · exact le_trans (le_of_lt hct) (hbound s h1)

/-- Same statement for the `generateMIDI` loop. -/
theorem genGroupsAux_starts (w : ℚ) (hw : 0 < w) (ts : List ℚ) :
    ∀ cur acc,
      List.Pairwise (· < ·) ((genGroupsAux w cur acc ts).map Prod.fst) ∧
      ∀ s ∈ (genGroupsAux w cur acc ts).map Prod.fst, cur ≤ s := by
  induction ts with
  | nil =>
    intro cur acc
    rw [genGroupsAux]
    by_cases h : acc = [] <;> simp [h]
  | cons t ts ih =>
    intro cur acc
    rw [genGroupsAux]
    by_cases hgt : t > cur + w
    · rw [if_pos hgt]
      have hct : cur < t := by linarith
      obtain ⟨hpair, hbound⟩ := ih t [t]
      by_cases h : acc = []
      · simp only [h, if_pos rfl, List.nil_append]
        refine ⟨hpair, fun s hs => le_trans (le_of_lt hct) (hbound s hs)⟩
      · simp only [if_neg h, List.singleton_append, List.map_cons,
          List.pairwise_cons]
        refine ⟨⟨fun s hs => lt_of_lt_of_le hct (hbound s hs), hpair⟩,
          fun s hs => ?_⟩
        rcases List.mem_cons.mp hs with h1 | h1
        · exact le_of_eq h1.symm
        · exact le_trans (le_of_lt hct) (hbound s h1)
    · rw [if_neg hgt]; exact ih cur (acc ++ [t])

/-- C1 (counterexample): a single event at exactly 0.02 s is a sequence with
non-decreasing times on which the playback scheduler's grouping and the
exporter's grouping disagree — `playMIDI` starts a fresh group at 0.02
(`0.02 - 0 < 0.02` fails) while `generateMIDI` appends to the initial group
with start time 0 (`0.02 > 0 + 0.02` fails). -/
theorem C1_boundary_event_disagrees :
    List.Sorted (· ≤ ·) [(1/50 : ℚ)] ∧
      playGroups timeWindowSize [(1/50 : ℚ)] ≠
        genGroups timeWindowSize [(1/50 : ℚ)] := by
  constructor
  · simp
  · norm_num [playGroups, genGroups, playGroupsAux, genGroupsAux,
      timeWindowSize, List.cons_ne_nil]

/-- C1 (amended): for every finite event sequence with non-decreasing times
in which no event falls exactly on the closing boundary of the group open
when it is processed, the playback scheduler (`playMIDI`) and the exporter
(`generateMIDI`) partition the events into the same groups with the same
group start times. -/
theorem C1_quantizers_agree_off_boundary (ts : List ℚ)
    (hs : List.Sorted (· ≤ ·) ts)
    (hb : noBoundaryHit timeWindowSize 0 ts = true) :
    playGroups timeWindowSize ts = genGroups timeWindowSize ts :=
  playGroupsAux_eq_genGroupsAux timeWindowSize ts 0 [] hb

/-- C1 (witness): the agreement theorem applied to the concrete sequence
`[0.001, 0.005, 0.025]`. -/
theorem C1_quantizers_agree_off_boundary_witness :
    List.Sorted (· ≤ ·) [(1/1000 : ℚ), 1/200, 1/40] ∧
      noBoundaryHit timeWindowSize 0 [(1/1000 : ℚ), 1/200, 1/40] = true ∧
      playGroups timeWindowSize [(1/1000 : ℚ), 1/200, 1/40] =
        genGroups timeWindowSize [(1/1000 : ℚ), 1/200, 1/40] :=
  ⟨by norm_num [List.sorted_cons], by norm_num [noBoundaryHit, timeWindowSize],
    C1_quantizers_agree_off_boundary [(1/1000 : ℚ), 1/200, 1/40]
      (by norm_num [List.sorted_cons])
      (by norm_num [noBoundaryHit, timeWindowSize])⟩

/-- C2 (counterexample): on events at `[0.001, 0.005, 0.025, 0.026]` with
the 0.02 s window, neither quantizer produces groups with start times
`0.001` and `0.025`: both loops start with `currentTime = 0`, so the first
event joins the initial group without moving its start time. -/
theorem C2_first_group_not_at_first_event :
    (playGroups timeWindowSize [(1/1000 : ℚ), 1/200, 1/40, 13/500]).map
        Prod.fst ≠ [(1/1000 : ℚ), 1/40] ∧
      (genGroups timeWindowSize [(1/1000 : ℚ), 1/200, 1/40, 13/500]).map
        Prod.fst ≠ [(1/1000 : ℚ), 1/40] := by
  constructor
  · norm_num [playGroups, playGroupsAux, timeWindowSize, List.cons_ne_nil]
  · norm_num [genGroups, genGroupsAux, timeWindowSize, List.cons_ne_nil]

/-- C2 (amended): feeding either quantizer the events at times
`[0.001, 0.005, 0.025, 0.026]` with a 0.02 s window produces exactly two
groups, whose start times are `0` (the initial window origin, not the first
event's time) and `0.025`. -/
theorem C2_two_groups_starts_zero_and_25ms :
    playGroups timeWindowSize [(1/1000 : ℚ), 1/200, 1/40, 13/500] =
        [(0, [1/1000, 1/200]), (1/40, [1/40, 13/500])] ∧
      genGroups timeWindowSize [(1/1000 : ℚ), 1/200, 1/40, 13/500] =
        [(0, [1/1000, 1/200]), (1/40, [1/40, 13/500])] := by
  constructor
  · norm_num [playGroups, playGroupsAux, timeWindowSize, List.cons_ne_nil]
  · norm_num [genGroups, genGroupsAux, timeWindowSize, List.cons_ne_nil]

/-- C6: for every input event sequence with non-decreasing times, both
quantizers emit strictly increasing group start times (no two groups share
a start time), and concatenating the group members in order recovers the
input sequence exactly — every input event lies in exactly one group,
none dropped, none duplicated. -/
theorem C6_strict_starts_and_partition (ts : List ℚ)
    (hs : List.Sorted (· ≤ ·) ts) :
    (List.Pairwise (· < ·) ((playGroups timeWindowSize ts).map Prod.fst) ∧
        (playGroups timeWindowSize ts).flatMap Prod.snd = ts) ∧
      (List.Pairwise (· < ·) ((genGroups timeWindowSize ts).map Prod.fst) ∧
        (genGroups timeWindowSize ts).flatMap Prod.snd = ts) := by
  have hw : (0 : ℚ) < timeWindowSize := by norm_num [timeWindowSize]
  refine ⟨⟨(playGroupsAux_starts timeWindowSize hw ts 0 []).1, ?_⟩,
          ⟨(genGroupsAux_starts timeWindowSize hw ts 0 []).1, ?_⟩⟩
  · simpa using playGroupsAux_flat timeWindowSize ts 0 []
  · simpa using genGroupsAux_flat timeWindowSize ts 0 []

/-- C6 (witness): the invariant theorem applied to the concrete sequence
`[0, 0.01, 0.03]`. -/
theorem C6_strict_starts_and_partition_witness :
    List.Sorted (· ≤ ·) [(0 : ℚ), 1/100, 3/100] ∧
      ((List.Pairwise (· < ·)
          ((playGroups timeWindowSize [(0 : ℚ), 1/100, 3/100]).map
            Prod.fst) ∧
        (playGroups timeWindowSize [(0 : ℚ), 1/100, 3/100]).flatMap
          Prod.snd = [(0 : ℚ), 1/100, 3/100]) ∧
      (List.Pairwise (· < ·)
          ((genGroups timeWindowSize [(0 : ℚ), 1/100, 3/100]).map
            Prod.fst) ∧
        (genGroups timeWindowSize [(0 : ℚ), 1/100, 3/100]).flatMap
          Prod.snd = [(0 : ℚ), 1/100, 3/100])) :=
  ⟨by norm_num [List.sorted_cons],
    C6_strict_starts_and_partition [(0 : ℚ), 1/100, 3/100]
      (by norm_num [List.sorted_cons])⟩

/-- Indices emitted by the scanner loop lie on the hop grid anchored at the
entry index and satisfy the loop guard. -/
theorem scanLoop_mem (len w h : ℕ) :
    ∀ fuel j i, i ∈ scanLoop len w h fuel j →
      (∃ k, i = j + k * h) ∧ i + w < len := by
  intro fuel
  induction fuel with
  | zero => intro j i hi; simp [scanLoop] at hi
  | succ fuel ih =>
    intro j i hi
    rw [scanLoop] at hi
    by_cases hc : j + w < len
    · rw [if_pos hc] at hi
      rcases List.mem_cons.mp hi with h1 | h1
      · exact ⟨⟨0, by simp [h1]⟩, h1 ▸ hc⟩
      · obtain ⟨⟨k, hk⟩, hb⟩ := ih (j + h) i h1
        exact ⟨⟨k + 1, by rw [hk]; ring⟩, hb⟩
    · rw [if_neg hc] at hi; simp at hi

/-- Every hop-grid index satisfying the loop guard is reached by the scanner
loop, provided the hop is positive and the fuel exceeds the index number. -/
theorem scanLoop_mem_of (len w h : ℕ) (hh : 0 < h) :
    ∀ k fuel j, k < fuel → j + k * h + w < len →
      j + k * h ∈ scanLoop len w h fuel j := by
  intro k
  induction k with
  | zero =>
    intro fuel j hk hb
    obtain ⟨f, rfl⟩ : ∃ f, fuel = f + 1 := ⟨fuel - 1, by omega⟩
    simp only [Nat.zero_mul, Nat.add_zero] at hb ⊢
    rw [scanLoop, if_pos hb]
    exact List.mem_cons_self _ _
  | succ k ih =>
    intro fuel j hk hb
    obtain ⟨f, rfl⟩ : ∃ f, fuel = f + 1 := ⟨fuel - 1, by omega⟩
    have hc : j + w < len := by nlinarith [Nat.zero_le (k * h)]
    rw [scanLoop, if_pos hc]
    have harr : j + (k + 1) * h = (j + h) + k * h := by ring
    rw [harr]
    refine List.mem_cons_of_mem _ (ih f (j + h) (by omega) ?_)
    rw [← harr]; exact hb

/-- Once the loop guard fails at the entry index, the scanner emits nothing,
whatever the fuel. -/
theorem scanLoop_eq_nil (len w h j : ℕ) (hc : ¬ j + w < len) :
    ∀ fuel, scanLoop len w h fuel j = [] := by
  intro fuel
  cases fuel with
  | zero => rfl
  | succ fuel => rw [scanLoop, if_neg hc]

/-- C3 (counterexample): a buffer of length exactly `windowSize = 2048`
satisfies `0 + windowSize ≤ bufferLength`, yet the scanner analyzes no frame
at start index 0 — the loop guard `i < bufferLength - windowSize` is strict,
so the final position with `i + windowSize = bufferLength` is skipped. -/
theorem C3_no_frame_at_exact_fit :
    0 + 2048 ≤ 2048 ∧ 0 ∉ frameStarts 2048 2048 512 := by
  refine ⟨le_refl _, ?_⟩
  rw [frameStarts, scanLoop_eq_nil 2048 2048 512 0 (by omega)]
  simp

/-- C3 (amended): for a positive hop size, the frame scanner analyzes a
window exactly at the start indices `0, hopSize, 2·hopSize, …` for which
`i + windowSize < bufferLength` holds strictly; the final position with
`i + windowSize = bufferLength` is not analyzed. -/
theorem C3_frameStarts_characterization (len w h : ℕ) (hh : 0 < h) (i : ℕ) :
    i ∈ frameStarts len w h ↔ h ∣ i ∧ i + w < len := by
  constructor
  · intro hi
    obtain ⟨⟨k, hk⟩, hb⟩ := scanLoop_mem len w h len 0 i hi
    exact ⟨⟨k, by rw [hk]; ring⟩, hb⟩
  · rintro ⟨⟨k, rfl⟩, hb⟩
    have hk : h * k = 0 + k * h := by ring
    rw [hk] at hb ⊢
    refine scanLoop_mem_of len w h hh k len 0 ?_ hb
    have h1 : k ≤ k * h := Nat.le_mul_of_pos_right k hh
    omega

/-- C3 (witness): the characterization applied to the spectral detector's
configuration (window 4096, hop 512) on a buffer of 8192 samples at start
index 512. -/
theorem C3_frameStarts_characterization_witness :
    0 < 512 ∧ (512 ∈ frameStarts 8192 4096 512 ↔
      512 ∣ 512 ∧ 512 + 4096 < 8192) :=
  ⟨by decide, C3_frameStarts_characterization 8192 4096 512 (by decide) 512⟩

/-- One search step either keeps the recorded best offset or records the
current lag. -/
theorem acStep_offset_cases (buffer : List ℝ) (M : ℕ) (st : ℝ × ℤ × ℝ)
    (offset : ℕ) :
    (acStep buffer M st offset).2.1 = st.2.1 ∨
      (acStep buffer M st offset).2.1 = (offset : ℤ) := by
  simp only [acStep]
  split_ifs <;> simp

/-- Folding the search step over lags that are all `≥ 1` preserves the
invariant "best offset is the `-1` sentinel or at least 1". -/
theorem acFold_offset_invariant (buffer : List ℝ) (M : ℕ) :
    ∀ l : List ℕ, (∀ o ∈ l, 1 ≤ o) → ∀ st : ℝ × ℤ × ℝ,
      st.2.1 = -1 ∨ 1 ≤ st.2.1 →
      ((l.foldl (acStep buffer M) st).2.1 = -1 ∨
        1 ≤ (l.foldl (acStep buffer M) st).2.1)
  | [], _, _, h => h
  | o :: l, hl, st, h => by
    rw [List.foldl_cons]
    refine acFold_offset_invariant buffer M l
      (fun x hx => hl x (List.mem_cons_of_mem _ hx)) _ ?_
    rcases acStep_offset_cases buffer M st o with h1 | h1
    · rw [h1]; exact h
    · right; rw [h1]
      exact_mod_cast hl o (List.mem_cons_self _ _)

/-- At lag 0 the correlation score is exactly 1
(`Σ |buffer[i] - buffer[i]| = 0`; in `ℝ` also when `M = 0`). -/
theorem corrAt_zero (buffer : List ℝ) (M : ℕ) : corrAt buffer M 0 = 1 := by
  unfold corrAt
  have h : ∀ i ∈ Finset.range M,
      |buffer.getD i 0 - buffer.getD (i + 0) 0| = 0 := by
    intro i _; simp
  rw [Finset.sum_congr rfl h]
  simp

/-- The lag search never selects lag 0: its correlation of exactly 1 does
not exceed the initial `lastCorrelation = 1`, so the final best offset is
the `-1` sentinel or a lag `≥ 1`. -/
theorem acSearch_offset_cases (buffer : List ℝ) (M : ℕ) :
    (acSearch buffer M).2.1 = -1 ∨ 1 ≤ (acSearch buffer M).2.1 := by
  unfold acSearch
  cases M with
  | zero => exact Or.inl rfl
  | succ m =>
    rw [List.range_succ_eq_map, List.foldl_cons]
    have hstep : acStep buffer (m + 1) (0, -1, 1) 0 = (0, -1, 1) := by
      simp only [acStep, corrAt_zero]
      norm_num
    rw [hstep]
    refine acFold_offset_invariant buffer (m + 1) _ ?_ _ (Or.inl rfl)
    intro o ho
    simp only [List.mem_map] at ho
    obtain ⟨x, _, rfl⟩ := ho
    exact Nat.succ_le_succ (Nat.zero_le x)

/-- `autoCorrelate` either returns the sentinel or divides the sample rate
by a selected lag `≥ 1`. -/
theorem autoCorrelate_cases (buffer : List ℝ) (sampleRate : ℝ) :
    autoCorrelate buffer sampleRate = -1 ∨
      ∃ k : ℤ, 1 ≤ k ∧ autoCorrelate buffer sampleRate = sampleRate / (k : ℝ) := by
  unfold autoCorrelate
  split_ifs with h1 h2
  · exact Or.inl rfl
  · exact Or.inl rfl
  · rcases acSearch_offset_cases buffer (buffer.length / 2) with h3 | h3
    · exact absurd h3 h2
    · exact Or.inr ⟨_, h3, rfl⟩

/-- C7: for every input buffer and sample rate, `autoCorrelate` either
returns the no-pitch sentinel `-1` or returns `sampleRate / best_offset`
for a selected lag `best_offset ≥ 1`; the zero-lag candidate is never
selected (its correlation of exactly 1 never exceeds the initial
`lastCorrelation` of 1), so the final division is never by zero. -/
theorem C7_no_zero_lag_division (buffer : List ℝ) (sampleRate : ℝ) :
    autoCorrelate buffer sampleRate = -1 ∨
      ∃ k : ℤ, 1 ≤ k ∧ autoCorrelate buffer sampleRate = sampleRate / (k : ℝ) :=
  autoCorrelate_cases buffer sampleRate

/-- Every entry read from an all-zero buffer is zero (in or out of range). -/
theorem getD_eq_zero_of_all_zero (buffer : List ℝ)
    (h : ∀ x ∈ buffer, x = 0) (i : ℕ) : buffer.getD i 0 = 0 := by
  by_cases hlt : i < buffer.length
  · rw [List.getD_eq_getElem buffer 0 hlt]
    exact h _ (List.getElem_mem hlt)
  · exact List.getD_eq_default buffer 0 (le_of_not_lt hlt)

/-- C10: for every all-zero (silent) input buffer, of any length, the
monophonic estimator `autoCorrelate` returns the no-pitch sentinel `-1`
(the RMS silence gate fires). -/
theorem C10_silent_buffer_no_pitch (buffer : List ℝ)
    (h : ∀ x ∈ buffer, x = 0) (sampleRate : ℝ) :
    autoCorrelate buffer sampleRate = -1 := by
  unfold autoCorrelate
  have hsum : (∑ i ∈ Finset.range buffer.length,
      buffer.getD i 0 * buffer.getD i 0) = 0 :=
    Finset.sum_eq_zero fun i _ => by
      rw [getD_eq_zero_of_all_zero buffer h i]; ring
  have hcond : Real.sqrt ((0 : ℝ) / buffer.length) < 0.0005 := by
    rw [zero_div, Real.sqrt_zero]; norm_num
  rw [hsum, if_pos hcond]

/-- C10 (witness): the silent-buffer theorem applied to a concrete
three-sample zero buffer at 44100 Hz. -/
theorem C10_silent_buffer_no_pitch_witness :
    (∀ x ∈ [(0 : ℝ), 0, 0], x = 0) ∧
      autoCorrelate [(0 : ℝ), 0, 0] 44100 = -1 :=
  ⟨by simp, C10_silent_buffer_no_pitch [(0 : ℝ), 0, 0] (by simp) 44100⟩

/-- C5 (counterexample): on a zero-length sample buffer the frame scanner
returns an ordinary empty pitch list; no error is raised — `detectPitches`
has no error path at all, so the result is indistinguishable from
"no pitch found". -/
theorem C5_empty_buffer_silently_empty : detectPitches [] 44100 = [] := rfl

/-- C5 (amended): given a zero-length sample buffer, or a non-positive
sample rate, the frame scanner performs no input validation and silently
produces an empty result instead of failing: with no samples no frame fits
the window, and with `sampleRate ≤ 0` every detected frequency
`sampleRate / best_offset` (or `-1`) fails the `hz > 50` filter. -/
theorem C5_no_failfast_empty_result :
    (∀ sampleRate : ℝ, detectPitches [] sampleRate = []) ∧
      ∀ (channelData : List ℝ) (sampleRate : ℝ), sampleRate ≤ 0 →
        detectPitches channelData sampleRate = [] := by
  constructor
  · intro sampleRate; rfl
  · intro channelData sampleRate hsr
    unfold detectPitches
    rw [List.filterMap_eq_nil_iff]
    intro i _
    dsimp only
    rw [if_neg]
    rintro ⟨h50, -⟩
    rcases autoCorrelate_cases ((channelData.drop i).take 2048) sampleRate
      with h1 | ⟨k, hk, h1⟩
    · rw [h1] at h50; norm_num at h50
    · rw [h1] at h50
      have hknn : (0 : ℝ) ≤ (k : ℝ) := by exact_mod_cast le_trans zero_le_one hk
      have : sampleRate / (k : ℝ) ≤ 0 := div_nonpos_of_nonpos_of_nonneg hsr hknn
      linarith

/-- C5 (witness): the no-validation theorem applied to the empty buffer at
44100 Hz and to a three-sample buffer at sample rate `-1`. -/
theorem C5_no_failfast_empty_result_witness :
    detectPitches [] 44100 = [] ∧
      ((-1 : ℝ) ≤ 0 ∧ detectPitches [(1 : ℝ), 0, 1] (-1) = []) :=
  ⟨C5_no_failfast_empty_result.1 44100,
    ⟨by norm_num, C5_no_failfast_empty_result.2 [(1 : ℝ), 0, 1] (-1) (by norm_num)⟩⟩

/-- C4: the shared `hzToMidi` (utils/pitchDetection.js, also inlined in the
playback path and in the spectral detector) does not clamp: at 14080 Hz
(five octaves above A4) it returns 129, outside the MIDI range [0, 127],
contradicting both the spec and the function's own doc comment
"(0-127)"; only the exporter's local variant clamps. -/
theorem C4_hzToMidi_exceeds_midi_range :
    hzToMidi 14080 = 129 ∧ ¬(hzToMidi 14080 ≤ 127) := by
  have h : hzToMidi 14080 = 129 := by
    unfold hzToMidi
    have h32 : (14080 : ℝ) / 440 = 2 ^ (5 : ℕ) := by norm_num
    rw [h32, Real.logb_pow, Real.logb_self_eq_one (by norm_num)]
    have h129 : (69 : ℝ) + 12 * ((5 : ℕ) * 1) = ((129 : ℤ) : ℝ) := by norm_num
    rw [h129, round_intCast]
  exact ⟨h, by rw [h]; decide⟩

/-- C8: for every integer `n` in [0, 127], `hzToMidi (midiToHz n) = n` —
the round trip is exact over the reals, so the only floating rounding
involved is the final `Math.round` of an integer. -/
theorem C8_round_trip (n : ℤ) (h0 : 0 ≤ n) (h127 : n ≤ 127) :
    hzToMidi (midiToHz n) = n := by
  unfold hzToMidi midiToHz
  have h440 : (440 : ℝ) * (2 : ℝ) ^ (((n : ℝ) - 69) / 12) / 440 =
      (2 : ℝ) ^ (((n : ℝ) - 69) / 12) :=
    mul_div_cancel_left₀ _ (by norm_num : (440 : ℝ) ≠ 0)
  rw [h440, Real.logb_rpow (by norm_num) (by norm_num)]
  have hn : (69 : ℝ) + 12 * (((n : ℝ) - 69) / 12) = ((n : ℤ) : ℝ) := by
    ring
  rw [hn, round_intCast]

/-- C8 (witness): the round-trip theorem applied to `n = 69` (A4, 440 Hz). -/
theorem C8_round_trip_witness :
    (0 : ℤ) ≤ 69 ∧ (69 : ℤ) ≤ 127 ∧ hzToMidi (midiToHz 69) = 69 :=
  ⟨by decide, by decide, C8_round_trip 69 (by decide) (by decide)⟩

/-- C9: given three peaks at frequencies `f`, `2f`, `3f` (`f > 0`) with
descending amplitudes, `filterHarmonics` returns exactly the single peak at
`f`: the peaks at `2f` and `3f` are removed as harmonics under the default
`0.1` tolerance of the near-integer-ratio test. -/
theorem C9_harmonics_filtered (f a1 a2 a3 : ℚ) (hf : 0 < f)
    (h12 : a2 < a1) (h23 : a3 < a2) :
    filterHarmonics [⟨f, a1⟩, ⟨2 * f, a2⟩, ⟨3 * f, a3⟩] = [⟨f, a1⟩] := by
  have hfne : f ≠ 0 := ne_of_gt hf
  have h2 : (2 * f) / f = 2 := by field_simp
  have h3 : (3 * f) / f = 3 := by field_simp
  have hr2 : round ((2 : ℚ)) = 2 := by norm_num [round_eq]
  have hr3 : round ((3 : ℚ)) = 3 := by norm_num [round_eq]
  have hH2 : isHarmonic (2 * f) f defaultTolerance = true := by
    simp only [isHarmonic, defaultTolerance, h2, hr2]
    norm_num
  have hH3 : isHarmonic (3 * f) f defaultTolerance = true := by
    simp only [isHarmonic, defaultTolerance, h3, hr3]
    norm_num
  have hsorted :
      List.mergeSort [Peak.mk f a1, ⟨2 * f, a2⟩, ⟨3 * f, a3⟩]
          (fun a b => decide (a.frequency ≤ b.frequency)) =
        [Peak.mk f a1, ⟨2 * f, a2⟩, ⟨3 * f, a3⟩] := by
    apply List.mergeSort_of_sorted
    constructor
    · intro b hb
      rcases List.mem_cons.mp hb with h | h
      · subst h; simp; linarith
      · rcases List.mem_cons.mp h with h | h
        · subst h; simp; linarith
        · simp at h
    constructor
    · intro b hb
      rcases List.mem_cons.mp hb with h | h
      · subst h; simp; linarith
      · simp at h
    constructor
    · intro b hb; simp at hb
    constructor
  rw [filterHarmonics]
  rw [if_neg (by simp)]
  simp only [hsorted]
  norm_num [List.range_succ, fhStep, hH2, hH3]

/-- C9 (witness): the harmonic-filter theorem applied to peaks at 100 Hz,
200 Hz and 300 Hz with amplitudes 3 > 2 > 1. -/
theorem C9_harmonics_filtered_witness :
    (0 : ℚ) < 100 ∧ (2 : ℚ) < 3 ∧ (1 : ℚ) < 2 ∧
      filterHarmonics [⟨100, 3⟩, ⟨2 * 100, 2⟩, ⟨3 * 100, 1⟩] = [⟨100, 3⟩] :=
  ⟨by norm_num, by norm_num, by norm_num,
    C9_harmonics_filtered 100 3 2 1 (by norm_num) (by norm_num) (by norm_num)⟩

end TalkingPiano
